import Mathlib

/-!
Verification of the `ru_soundex` phonetic coder (`ru_soundex/soundex.py`).

The development is a shallow embedding: words are lists of characters,
Python regex substitutions are modelled by an explicit left-to-right
scan-and-replace driver (`subAllF`), `str.translate` by finite lookup
tables, and the fallible parts of the pipeline (indexing into an empty
word, the external morphological oracle) by `Except`.
-/

/-- Lookup in an association table; characters not in the table are
returned unchanged (the semantics of Python's `str.translate`). -/
def tblGet (tbl : List (Char × Char)) (c : Char) : Char :=
  match tbl with
  | [] => c
  | (k, v) :: rest => if c = k then v else tblGet rest c

/-- Uppercase-to-lowercase pairs for the character set the program works
over: ASCII letters and the Russian Cyrillic block (А-Я/а-я plus Ё/ё). -/
def lowPairs : List (Char × Char) :=
  ((List.range 26).map (fun i => (Char.ofNat (65 + i), Char.ofNat (97 + i)))) ++
  ((List.range 32).map (fun i => (Char.ofNat (0x410 + i), Char.ofNat (0x430 + i)))) ++
  [('Ё', 'ё')]

/-- Lowercase-to-uppercase pairs (the inverse of `lowPairs`). -/
def upPairs : List (Char × Char) := lowPairs.map (fun p => (p.2, p.1))

/-- `str.lower` on one character. -/
def lowerCh (c : Char) : Char := tblGet lowPairs c

/-- `str.upper` (and, on a single character, `str.capitalize`) on one
character. -/
def upperCh (c : Char) : Char := tblGet upPairs c

/-- The characters matched by the regex class `\w` on the program's
character set: ASCII letters, digits, underscore and Cyrillic letters. -/
def wordChars : List Char :=
  (lowPairs.map Prod.fst) ++ (lowPairs.map Prod.snd) ++
  ((List.range 10).map (fun i => Char.ofNat (48 + i))) ++ ['_']

/-- Test for `\w`. -/
def isWord (c : Char) : Bool := wordChars.contains c

/-- `Soundex._vowels` for `RussianSoundex`: `'аэиоуыеёюя'`. -/
def ruVowels : List Char := ['а', 'э', 'и', 'о', 'у', 'ы', 'е', 'ё', 'ю', 'я']

/-- `RussianSoundex._table`:
`str.maketrans('бпвфгкхдтжшчщзсцлмнр', '11223334455556667889')`. -/
def consPairs : List (Char × Char) :=
  [('б', '1'), ('п', '1'), ('в', '2'), ('ф', '2'), ('г', '3'), ('к', '3'),
   ('х', '3'), ('д', '4'), ('т', '4'), ('ж', '5'), ('ш', '5'), ('ч', '5'),
   ('щ', '5'), ('з', '6'), ('с', '6'), ('ц', '6'), ('л', '7'), ('м', '8'),
   ('н', '8'), ('р', '9')]

/-- `RussianSoundex._vowels_table`:
`str.maketrans('аяоыиеёэюу', 'AAABBBBBCC')`. -/
def vowelPairs : List (Char × Char) :=
  [('а', 'A'), ('я', 'A'), ('о', 'A'), ('ы', 'B'), ('и', 'B'), ('е', 'B'),
   ('ё', 'B'), ('э', 'B'), ('ю', 'C'), ('у', 'C')]

/-- A matcher describes one regex pattern: given whether the scan position
is the start of the string and the remaining characters, it returns
`some (n, repl)` when the pattern matches a prefix of length `n + 1`,
to be replaced by `repl`.  Matches always consume at least one character
(none of the program's patterns can match the empty string). -/
def Matcher : Type := Bool → List Char → Option (Nat × List Char)

/-- `re.sub` driver: scan left to right; at a match, emit the replacement
and continue after the matched span (the replacement is not rescanned);
otherwise emit the current character and advance by one.  `fuel` bounds
the recursion and is always called with at least the length of the list. -/
def subAllF (m : Matcher) : Nat → Bool → List Char → List Char
  | 0, _, l => l
  | _ + 1, _, [] => []
  | fuel + 1, atStart, c :: rest =>
    match m atStart (c :: rest) with
    | some (n, repl) => repl ++ subAllF m fuel false (rest.drop n)
    | none => c :: subAllF m fuel false rest

/-- `pattern.sub(repl, l)` for the whole word. -/
def reSubAll (m : Matcher) (l : List Char) : List Char := subAllF m l.length true l

/-- Character-class test; a case-insensitive pattern compares the
lowercased character (Python's `re.IGNORECASE`). -/
def charTest (ci : Bool) (cls : List Char) (c : Char) : Bool :=
  cls.contains (if ci then lowerCh c else c)

/-- Match a fixed sequence of character classes against a prefix,
returning the matched characters and the remainder. -/
def matchPat (ci : Bool) : List (List Char) → List Char → Option (List Char × List Char)
  | [], l => some ([], l)
  | _ :: _, [] => none
  | cls :: pats, c :: l =>
    if charTest ci cls c then (matchPat ci pats l).map (fun p => (c :: p.1, p.2))
    else none

/-- Matcher for a pattern that is a fixed sequence of character classes,
optionally anchored at the end of the string (`$`), whose replacement is
built from copied match characters (`Sum.inl i` = matched character `i`,
i.e. a group reference) and literal characters (`Sum.inr`). -/
def classMatcher (ci : Bool) (pat : List (List Char)) (atEnd : Bool)
    (repl : List (Sum Nat Char)) : Matcher :=
  fun _ l =>
    match matchPat ci pat l with
    | none => none
    | some (m, rest) =>
      if atEnd && !rest.isEmpty then none
      else some (pat.length - 1,
        repl.map (fun r => match r with | Sum.inl i => m.getD i '?' | Sum.inr c => c))

/-- Context characters of the iotation patterns: `^|ъ|ь|` + the vowels. -/
def ctxChars : List Char := ['ъ', 'ь'] ++ ruVowels

/-- Matcher for one iotation rule `(^|ъ|ь|<vowels>)(t)` with literal
replacement `lit`; Python's alternation tries the zero-width `^` first. -/
def iotaMatcher (t : Char) (lit : List Char) : Matcher :=
  fun atStart l =>
    match l with
    | [] => none
    | a :: rest =>
      if atStart && (lowerCh a = t) then some (0, lit)
      else
        match rest with
        | [] => none
        | b :: _ =>
          if ctxChars.contains (lowerCh a) && (lowerCh b = t) then some (1, lit)
          else none

/-- `Soundex._reduce_regex = (\w)(\1)+` with `re.IGNORECASE`; under
IGNORECASE a backreference matches case-insensitively, so a maximal run
of case-insensitively equal word characters collapses to its first
character. -/
def reduceMatcher : Matcher :=
  fun _ l =>
    match l with
    | [] => none
    | c :: rest =>
      if isWord c then
        let k := (rest.takeWhile (fun x => lowerCh x = lowerCh c)).length
        if k = 0 then none else some (k, [c])
      else none

/-- `Soundex._vowels_regex = (0+)`, substituted by the empty string. -/
def zerosMatcher : Matcher :=
  fun _ l =>
    match l with
    | [] => none
    | c :: rest =>
      if c = '0' then some ((rest.takeWhile (fun x => x = '0')).length, [])
      else none

/-- Rule `(^|ъ|ь|<vowels>)(я) -> 'jа'`. -/
def ruleYa : Matcher := iotaMatcher 'я' ['j', 'а']

/-- Rule `(^|ъ|ь|<vowels>)(ю) -> 'jу'`. -/
def ruleYu : Matcher := iotaMatcher 'ю' ['j', 'у']

/-- Rule `(^|ъ|ь|<vowels>)(е) -> 'jэ'`. -/
def ruleYe : Matcher := iotaMatcher 'е' ['j', 'э']

/-- Rule `(^|ъ|ь|<vowels>)(ё) -> 'jо'`. -/
def ruleYo : Matcher := iotaMatcher 'ё' ['j', 'о']

/-- Rule `й -> j`. -/
def ruleJ : Matcher := classMatcher true [['й']] false [Sum.inr 'j']

/-- Rule `([тсзжцчшщ])([жцчшщ]) -> \2`. -/
def ruleSibilants : Matcher :=
  classMatcher true [['т', 'с', 'з', 'ж', 'ц', 'ч', 'ш', 'щ'], ['ж', 'ц', 'ч', 'ш', 'щ']]
    false [Sum.inl 1]

/-- Rule `(с)(т)([лнц]) -> \1\3`. -/
def ruleStl : Matcher :=
  classMatcher true [['с'], ['т'], ['л', 'н', 'ц']] false [Sum.inl 0, Sum.inl 2]

/-- Rule `(н)([тд])(ств) -> \1\3`. -/
def ruleNtstv : Matcher :=
  classMatcher true [['н'], ['т', 'д'], ['с'], ['т'], ['в']] false
    [Sum.inl 0, Sum.inl 2, Sum.inl 3, Sum.inl 4]

/-- Rule `([нс])([тд])(ск) -> \1\3`. -/
def ruleNtsk : Matcher :=
  classMatcher true [['н', 'с'], ['т', 'д'], ['с'], ['к']] false
    [Sum.inl 0, Sum.inl 2, Sum.inl 3]

/-- Rule `(р)(д)([чц]) -> \1\3`. -/
def ruleRdc : Matcher :=
  classMatcher true [['р'], ['д'], ['ч', 'ц']] false [Sum.inl 0, Sum.inl 2]

/-- Rule `(з)(д)([нц]) -> \1\3`. -/
def ruleZdn : Matcher :=
  classMatcher true [['з'], ['д'], ['н', 'ц']] false [Sum.inl 0, Sum.inl 2]

/-- Rule `(в)(ств) -> \2`. -/
def ruleVstv : Matcher :=
  classMatcher true [['в'], ['с'], ['т'], ['в']] false
    [Sum.inl 1, Sum.inl 2, Sum.inl 3]

/-- Rule `(л)(нц) -> \2`. -/
def ruleLnc : Matcher :=
  classMatcher true [['л'], ['н'], ['ц']] false [Sum.inl 1, Sum.inl 2]

/-- Rule `[ъь] -> ''`. -/
def ruleSigns : Matcher := classMatcher true [['ъ', 'ь']] false []

/-- Rule `([дт][зсц]) -> ц`. -/
def ruleDts : Matcher :=
  classMatcher true [['д', 'т'], ['з', 'с', 'ц']] false [Sum.inr 'ц']

/-- Cleanup rewrite `и[еио] -> и` (no IGNORECASE flag: case-sensitive). -/
def cleanupIe : Matcher :=
  classMatcher false [['и'], ['е', 'и', 'о']] false [Sum.inr 'и']

/-- Cleanup rewrite `[еи][ая] -> я` (no IGNORECASE flag: case-sensitive). -/
def cleanupEa : Matcher :=
  classMatcher false [['е', 'и'], ['а', 'я']] false [Sum.inr 'я']

/-- `RussianSoundex._ego_ogo_endings = ([ео])(г)(о$)` with replacement
`\1в\3`. -/
def ruleEgoOgo : Matcher :=
  classMatcher true [['е', 'о'], ['г'], ['о']] true
    [Sum.inl 0, Sum.inr 'в', Sum.inl 2]

/-- `RussianSoundex._replacement_map` in its (insertion-order) sequence. -/
def replacementMap : List Matcher :=
  [ruleYa, ruleYu, ruleYe, ruleYo, ruleJ, ruleSibilants, ruleStl, ruleNtstv,
   ruleNtsk, ruleRdc, ruleZdn, ruleVstv, ruleLnc, ruleSigns, ruleDts]

/-- The `for replace, result in self._replacement_map.items()` loop. -/
def applyReplacementMap (w : List Char) : List Char :=
  replacementMap.foldl (fun acc m => reSubAll m acc) w

/-- The configuration held by a `RussianSoundex` instance. -/
structure Config where
  delete_first_letter : Bool := false
  delete_first_coded_letter : Bool := false
  delete_zeros : Bool := false
  cut_result : Bool := false
  seq_cutted_len : Int := 4
  code_vowels : Bool := false
  use_morph_analysis : Bool := false

/-- The ways a `transform` call can fail at runtime.  `invalidInput` is
the structured rejection named by the specification's error taxonomy;
`indexError` is Python's `IndexError` (raised by `word[0]` on an empty
string); `oracleError` stands for an exception escaping the external
morphological oracle. -/
inductive ErrKind where
  | invalidInput
  | indexError
  | oracleError
deriving DecidableEq

/-- One morphological parse, exposing its tag set. -/
structure MorphParse where
  tag : List String

/-- The external morphological oracle: `pymorphy2`'s `parse`, which
returns the ranked list of parses or raises. -/
def Oracle : Type := List Char → Except ErrKind (List MorphParse)

/-- `'ADJF' in tag or 'NUMB' in tag or 'NPRO' in tag`. -/
def hasTargetTag (p : MorphParse) : Bool :=
  p.tag.contains "ADJF" || p.tag.contains "NUMB" || p.tag.contains "NPRO"

/-- `RussianSoundex._replace_ego_ogo_endings`. -/
def replaceEgoOgoEndings (w : List Char) : List Char := reSubAll ruleEgoOgo w

/-- `RussianSoundex._use_morph_for_phoneme_replace`: the source calls the
oracle with no exception handler, so an oracle error propagates. -/
def useMorphForPhonemeReplace (oracle : Oracle) (w : List Char) :
    Except ErrKind (List Char) :=
  match oracle w with
  | .error e => .error e
  | .ok parses =>
    .ok (match parses with
      | [] => w
      | p :: _ => if hasTargetTag p then replaceEgoOgoEndings w else w)

/-- Test membership in `Soundex._vowels` (overridden set for Russian). -/
def isVowelRu (c : Char) : Bool := ruVowels.contains c

/-- `RussianSoundex._translate_vowels`: the grouped-vowel table when
`code_vowels` is set, otherwise the base class's `'0'` placeholder. -/
def translateVowels (cfg : Config) (w : List Char) : List Char :=
  if cfg.code_vowels then w.map (tblGet vowelPairs)
  else w.map (fun c => if isVowelRu c then '0' else c)

/-- `Soundex._reduce_seq`. -/
def reduceSeq (s : List Char) : List Char := reSubAll reduceMatcher s

/-- `Soundex._remove_vowels_and_paired_sounds`. -/
def removeVowelsAndPairedSounds (s : List Char) : List Char :=
  reduceSeq (reSubAll zerosMatcher s)

/-- Python slicing `l[:n]` for an `int` bound. -/
def pySliceTo (l : List Char) (n : Int) : List Char :=
  if 0 ≤ n then l.take n.toNat else l.take ((l.length + n).toNat)

/-- The `cut_result` stage of `_apply_soundex_algorithm`: truncate with
Python slicing when the sequence is long enough, then right-pad with
'0'. -/
def cutStep (cut : Bool) (n : Int) (last : List Char) : List Char :=
  if cut then
    let l2 := if n ≤ (last.length : Int) then pySliceTo last n else last
    l2 ++ List.replicate (n - (l2.length : Int)).toNat '0'
  else last

/-- The `delete_zeros` stage. -/
def zerosStep (dz : Bool) (last : List Char) : List Char :=
  if dz then removeVowelsAndPairedSounds last else last

/-- The `delete_first_coded_letter` stage (Python `last[1:]`). -/
def dfclStep (d : Bool) (last : List Char) : List Char :=
  if d then last.drop 1 else last

/-- The `last` value of `Soundex._apply_soundex_algorithm`, computed from
the already-lowercased word: translate consonants, translate vowels,
reduce, then the optional `delete_zeros`, `cut_result` and
`delete_first_coded_letter` steps. -/
def codeLast (cfg : Config) (word : List Char) : List Char :=
  dfclStep cfg.delete_first_coded_letter
    (cutStep cfg.cut_result cfg.seq_cutted_len
      (zerosStep cfg.delete_zeros
        (reduceSeq (translateVowels cfg (word.map (tblGet consPairs))))))

/-- `Soundex._apply_soundex_algorithm`: lowercase, read `word[0]` (an
`IndexError` on the empty string), build `last`, and assemble
`first_char + last.upper()`. -/
def applySoundexAlgorithm (cfg : Config) (word : List Char) :
    Except ErrKind (List Char) :=
  match word.map lowerCh with
  | [] => .error .indexError
  | f :: rest =>
    .ok ((if cfg.delete_first_letter then [] else [upperCh f]) ++
      (codeLast cfg (f :: rest)).map upperCh)

/-- The word-rewriting part of `RussianSoundex.transform`: the optional
morphological hook, the replacement map, and the `code_vowels` cleanups. -/
def normalizeWord (cfg : Config) (oracle : Oracle) (w : List Char) :
    Except ErrKind (List Char) :=
  match (if cfg.use_morph_analysis then useMorphForPhonemeReplace oracle w
         else .ok w) with
  | .error e => .error e
  | .ok w1 =>
    let w2 := applyReplacementMap w1
    .ok (if cfg.code_vowels then reSubAll cleanupEa (reSubAll cleanupIe w2) else w2)

/-- `RussianSoundex.transform`. -/
def transform (cfg : Config) (oracle : Oracle) (w : List Char) :
    Except ErrKind (List Char) :=
  match normalizeWord cfg oracle w with
  | .error e => .error e
  | .ok n => applySoundexAlgorithm cfg n

/-- An oracle that returns no parse for any word. -/
def emptyOracle : Oracle := fun _ => .ok []

/-- Modelled from the spec: the reducer as the specification words it,
"every maximal run of length ≥2 of an identical symbol is collapsed to
length 1", for comparison with the source's `reduceSeq`. -/
def collapseRuns : List Char → List Char
  | [] => []
  | c :: rest => c :: collapseRuns (rest.dropWhile (fun x => x = c))
termination_by l => l.length
decreasing_by simp only [List.length_cons]; exact Nat.lt_succ_of_le (List.dropWhile_sublist _).length_le

/-- Claim C10: with `delete_first_letter`, `delete_zeros` set and
`cut_result`, `code_vowels` unset, the non-empty all-vowel word "ааа"
encodes to a tail that is stripped to nothing, so `transform` returns
the empty string. -/
theorem claimC10 :
    transform { delete_first_letter := true, delete_zeros := true } emptyOracle
      ['а', 'а', 'а'] = .ok [] ∧ (['а', 'а', 'а'] : List Char) ≠ [] :=
  ⟨rfl, by decide⟩

/-- Reduction of `transform` when normalization succeeds. -/
theorem transform_eq_ok {cfg : Config} {oracle : Oracle} {w n : List Char}
    (h : normalizeWord cfg oracle w = .ok n) :
    transform cfg oracle w = applySoundexAlgorithm cfg n := by
  unfold transform
  rw [h]

/-- Reduction of `transform` when normalization fails. -/
theorem transform_eq_err {cfg : Config} {oracle : Oracle} {w : List Char}
    {e : ErrKind} (h : normalizeWord cfg oracle w = .error e) :
    transform cfg oracle w = .error e := by
  unfold transform
  rw [h]

/-- Reduction of `applySoundexAlgorithm` on a word whose lowercasing is
non-empty. -/
theorem applySoundex_cons {cfg : Config} {word : List Char} {f : Char}
    {rest : List Char} (h : word.map lowerCh = f :: rest) :
    applySoundexAlgorithm cfg word =
      .ok ((if cfg.delete_first_letter then [] else [upperCh f]) ++
        (codeLast cfg (f :: rest)).map upperCh) := by
  unfold applySoundexAlgorithm
  rw [h]

/-- Reduction of `applySoundexAlgorithm` on the empty word. -/
theorem applySoundex_nil {cfg : Config} {word : List Char}
    (h : word.map lowerCh = []) :
    applySoundexAlgorithm cfg word = .error .indexError := by
  unfold applySoundexAlgorithm
  rw [h]


/-- Claim C1, counterexample: with `cut_result` set (length 4) and
`delete_first_coded_letter` also set, the coded tail of the code for
"абв" has length 3, not `seq_cutted_len` (with `delete_first_letter` set
the returned code is exactly the coded tail). -/
theorem claimC1_counterexample :
    transform { cut_result := true, delete_first_coded_letter := true,
                delete_first_letter := true } emptyOracle ['а', 'б', 'в'] =
      .ok ['1', '2', '0'] ∧ ((['1', '2', '0'] : List Char).length : Int) ≠ 4 :=
  ⟨rfl, by decide⟩

/-- Claim C1, amended: when `cut_result` is set, `seq_cutted_len` is
nonnegative and `delete_first_coded_letter` is not set, the code returned
by `transform` has length `seq_cutted_len` plus one for the leading
letter unless `delete_first_letter`; the coded tail therefore has length
exactly `seq_cutted_len` (when `delete_first_coded_letter` is set the
tail loses one further character, as the counterexample shows). -/
theorem claimC1_amended (cfg : Config) (oracle : Oracle) (w code : List Char)
    (hcut : cfg.cut_result = true) (hdfc : cfg.delete_first_coded_letter = false)
    (hlen : 0 ≤ cfg.seq_cutted_len)
    (h : transform cfg oracle w = .ok code) :
    (code.length : Int) = (if cfg.delete_first_letter then 0 else 1) + cfg.seq_cutted_len := by
  rcases hn : normalizeWord cfg oracle w with e | n
  · rw [transform_eq_err hn] at h; exact absurd h (by simp)
  · rw [transform_eq_ok hn] at h
    rcases hm : n.map lowerCh with _ | ⟨f, rest⟩
    · rw [applySoundex_nil hm] at h; exact absurd h (by simp)
    · rw [applySoundex_cons hm] at h
      have hcode : code = (if cfg.delete_first_letter then [] else [upperCh f]) ++
          (codeLast cfg (f :: rest)).map upperCh := by
        cases h; rfl
      have key : ∀ l : List Char,
          ((cutStep true cfg.seq_cutted_len l).length : Int) = cfg.seq_cutted_len := by
        intro l
        unfold cutStep
        rw [if_pos rfl]
        dsimp only
        by_cases hle : cfg.seq_cutted_len ≤ (l.length : Int)
        · rw [if_pos hle]
          unfold pySliceTo
          rw [if_pos hlen]
          simp only [List.length_append, List.length_take, List.length_replicate]
          omega
        · rw [if_neg hle]
          simp only [List.length_append, List.length_replicate]
          omega
      have htail : ((codeLast cfg (f :: rest)).length : Int) = cfg.seq_cutted_len := by
        unfold codeLast dfclStep
        rw [hcut, hdfc]
        rw [if_neg (by decide : ¬ false = true)]
        exact key _
      rw [hcode]
      simp only [List.length_append, List.length_map]
      cases hfl : cfg.delete_first_letter <;> simp only [hfl, Bool.false_eq_true,
        if_false, if_true, List.length_nil, List.length_cons] <;>
        push_cast <;> omega

/-- Claim C1, witness for the amended theorem at a concrete input. -/
theorem claimC1_witness :
    transform { cut_result := true } emptyOracle ['а', 'б', 'в'] =
      .ok ['А', '0', '1', '2', '0'] ∧
    ((['А', '0', '1', '2', '0'] : List Char).length : Int) =
      (if ({ cut_result := true } : Config).delete_first_letter then 0 else 1) +
        ({ cut_result := true } : Config).seq_cutted_len :=
  ⟨rfl, claimC1_amended { cut_result := true } emptyOracle ['а', 'б', 'в']
    ['А', '0', '1', '2', '0'] rfl rfl (by decide) rfl⟩

/-- Claim C2, counterexample: the empty word is not rejected before
pipeline entry with a structured `invalidInput` error — it reaches
`_apply_soundex_algorithm` and fails there with an `IndexError`; and the
non-empty word "ь" also fails (its normalization deletes the soft sign,
so `word[0]` is again out of range), contradicting totality over
non-empty input. -/
theorem claimC2_counterexample :
    transform {} emptyOracle [] = .error .indexError ∧
    transform {} emptyOracle ['ь'] = .error .indexError ∧
    ErrKind.indexError ≠ ErrKind.invalidInput :=
  ⟨rfl, rfl, by decide⟩

/-- Claim C2, amended: `transform` never performs a structured input
check; it fails (with Python's `IndexError`) exactly when the normalized
word is empty — which happens for the empty input and for non-empty
inputs consisting only of soft/hard signs — and succeeds whenever the
normalized word is non-empty. -/
theorem claimC2_amended (cfg : Config) (oracle : Oracle) (w n : List Char)
    (h : normalizeWord cfg oracle w = .ok n) :
    (n = [] → transform cfg oracle w = .error .indexError) ∧
    (n ≠ [] → ∃ code, transform cfg oracle w = .ok code) := by
  constructor
  · intro hnil
    subst hnil
    rw [transform_eq_ok h]
    exact applySoundex_nil rfl
  · intro hne
    rw [transform_eq_ok h]
    rcases hm : n.map lowerCh with _ | ⟨f, rest⟩
    · exact absurd (List.map_eq_nil_iff.mp hm) hne
    · exact ⟨_, applySoundex_cons hm⟩

/-- Claim C2, witness for the amended theorem at concrete inputs. -/
theorem claimC2_witness :
    normalizeWord {} emptyOracle ['д', 'о', 'м'] = .ok ['д', 'о', 'м'] ∧
    (['д', 'о', 'м'] ≠ ([] : List Char) →
      ∃ code, transform {} emptyOracle ['д', 'о', 'м'] = .ok code) :=
  ⟨rfl, (claimC2_amended {} emptyOracle ['д', 'о', 'м'] ['д', 'о', 'м'] rfl).2⟩

/-- Claim C3, counterexample: the morphological hook has no exception
handler, so an oracle call that fails aborts `transform` with the
oracle's error, contradicting "transform never aborts because of the
oracle". -/
theorem claimC3_counterexample :
    transform { use_morph_analysis := true } (fun _ => .error .oracleError)
      ['а', 'б'] = .error .oracleError :=
  rfl

/-- Claim C3, amended: when the oracle returns (rather than raises), the
hook inspects only the best-ranked parse — the result of `transform` is
unchanged if the oracle's answer is truncated to its first parse — and
an oracle returning no parse leaves the word unchanged by the hook:
`transform` then behaves exactly as with morphological analysis
disabled.  (An oracle that raises, however, propagates and aborts
`transform`, as the counterexample shows.) -/
theorem claimC3_amended (cfg : Config) (oracle : Oracle) (w : List Char)
    (ps : List MorphParse) (h : oracle w = .ok ps) :
    transform cfg oracle w = transform cfg (fun _ => .ok (ps.take 1)) w ∧
    (ps = [] → transform cfg oracle w =
      transform { cfg with use_morph_analysis := false } oracle w) := by
  obtain ⟨f1, f2, f3, f4, n5, f6, f7⟩ := cfg
  constructor
  · cases f7
    · rfl
    · unfold transform normalizeWord useMorphForPhonemeReplace
      rw [h]
      cases ps <;> rfl
  · intro hps
    subst hps
    cases f7
    · rfl
    · unfold transform normalizeWord useMorphForPhonemeReplace
      rw [h]
      rfl

/-- Claim C3, witness for the amended theorem at a concrete input. -/
theorem claimC3_witness :
    emptyOracle ['а', 'б'] = .ok [] ∧
    transform { use_morph_analysis := true } emptyOracle ['а', 'б'] =
      transform { ({ use_morph_analysis := true } : Config) with
        use_morph_analysis := false } emptyOracle ['а', 'б'] :=
  ⟨rfl, (claimC3_amended { use_morph_analysis := true } emptyOracle
    ['а', 'б'] [] rfl).2 rfl⟩

/-- Claim C4, counterexample: for input "яма" the iotation rewrite turns
the word into "jама" before `_apply_soundex_algorithm` runs, so the
code's first character is 'J' — the capitalized first character of the
normalized word — not 'Я' from the original input. -/
theorem claimC4_counterexample :
    transform {} emptyOracle ['я', 'м', 'а'] = .ok ['J', 'J', '0', '8', '0'] ∧
    (['J', 'J', '0', '8', '0'] : List Char).head? ≠ some 'Я' :=
  ⟨rfl, by decide⟩

/-- Claim C4, amended: unless `delete_first_letter` is set, the first
character of the code is the capitalized first character of the
normalized word (the word after the rewrite rules), not of the original
input. -/
theorem claimC4_amended (cfg : Config) (oracle : Oracle) (w n code : List Char)
    (c : Char) (hd : cfg.delete_first_letter = false)
    (hn : normalizeWord cfg oracle w = .ok n) (hc : n.head? = some c)
    (h : transform cfg oracle w = .ok code) :
    code.head? = some (upperCh (lowerCh c)) := by
  rw [transform_eq_ok hn] at h
  cases n with
  | nil => simp at hc
  | cons a rest =>
    have hc' : a = c := by simpa using hc
    subst hc'
    rw [applySoundex_cons (List.map_cons lowerCh a rest)] at h
    have : code = (if cfg.delete_first_letter then [] else [upperCh (lowerCh a)]) ++
        (codeLast cfg (lowerCh a :: rest.map lowerCh)).map upperCh := by
      cases h; rfl
    rw [this, hd]
    rfl

/-- Claim C4, witness for the amended theorem at a concrete input. -/
theorem claimC4_witness :
    normalizeWord {} emptyOracle ['д', 'о', 'м'] = .ok ['д', 'о', 'м'] ∧
    transform {} emptyOracle ['д', 'о', 'м'] = .ok ['Д', '4', '0', '8'] ∧
    (['Д', '4', '0', '8'] : List Char).head? = some (upperCh (lowerCh 'д')) :=
  ⟨rfl, rfl, claimC4_amended {} emptyOracle ['д', 'о', 'м'] ['д', 'о', 'м']
    ['Д', '4', '0', '8'] 'д' rfl rfl rfl rfl⟩

/-- Claim C5, counterexample: the iotation substitution replaces the
whole match, including the preceding vowel: normalizing "мая" yields
"мjа", not "маjа" — the 'а' before the rewritten 'я' is dropped. -/
theorem claimC5_counterexample :
    normalizeWord {} emptyOracle ['м', 'а', 'я'] = .ok ['м', 'j', 'а'] ∧
    (['м', 'j', 'а'] : List Char) ≠ ['м', 'а', 'j', 'а'] :=
  ⟨rfl, by decide⟩

/-- Claim C5, amended: when a soft vowel я is preceded by any vowel, the
iotation rule consumes the whole match — the preceding vowel together
with the я — and replaces it by "jа", so the preceding vowel is dropped
(only at word start, or before a soft/hard sign that a later rule would
delete anyway, is nothing lost). -/
theorem claimC5_amended (c : Char) (oracle : Oracle) (hc : c ∈ ruVowels) :
    normalizeWord {} oracle ['м', c, 'я'] = .ok ['м', 'j', 'а'] := by
  simp only [ruVowels, List.mem_cons, List.not_mem_nil, or_false] at hc
  rcases hc with rfl | rfl | rfl | rfl | rfl | rfl | rfl | rfl | rfl | rfl <;> rfl

/-- Claim C5, witness for the amended theorem at a concrete input. -/
theorem claimC5_witness :
    'а' ∈ ruVowels ∧
    normalizeWord {} emptyOracle ['м', 'а', 'я'] = .ok ['м', 'j', 'а'] :=
  ⟨by decide, claimC5_amended 'а' emptyOracle (by decide)⟩

/-- Claim C6, counterexample: with `cut_result` set, right-padding with
'0' puts two adjacent identical '0' symbols into the coded tail (with
`delete_first_letter` set the code is exactly the coded tail). -/
theorem claimC6_counterexample :
    transform { cut_result := true, delete_first_letter := true } emptyOracle
      ['а', 'б'] = .ok ['0', '1', '0', '0'] ∧
    ¬ List.Chain' (· ≠ ·) (['0', '1', '0', '0'] : List Char) := by
  refine ⟨rfl, fun hch => ?_⟩
  rw [List.chain'_cons, List.chain'_cons, List.chain'_cons] at hch
  exact hch.2.2.1 rfl

/-- Claim C7, counterexample: the `code_vowels` cleanup rewrites are
compiled without `re.IGNORECASE`, so for the word "ио" the cleanup fires
on the lowercase spelling but not on the uppercase one, and
`transform("ио") ≠ transform("ИО")`. -/
theorem claimC7_counterexample :
    transform { code_vowels := true } emptyOracle ['и', 'о'] = .ok ['И', 'B'] ∧
    transform { code_vowels := true } emptyOracle (['и', 'о'].map upperCh) =
      .ok ['И', 'B', 'A'] ∧
    (['И', 'B'] : List Char) ≠ ['И', 'B', 'A'] :=
  ⟨rfl, rfl, by decide⟩

/-- Claim C8, counterexample: the source's reducer `(\w)(\1)+` only
touches word characters, so the run "--" of two identical symbols is not
collapsed, diverging from the specified collapse of every maximal run of
an identical symbol. -/
theorem claimC8_counterexample :
    reduceSeq ['-', '-'] = ['-', '-'] ∧ collapseRuns ['-', '-'] = ['-'] ∧
    reduceSeq ['-', '-'] ≠ collapseRuns ['-', '-'] := by
  have h2 : collapseRuns ['-', '-'] = ['-'] := by
    rw [collapseRuns]
    simp [List.dropWhile, collapseRuns]
  exact ⟨rfl, h2, by rw [h2]; decide⟩

/-- Dropping the length of the matched run reaches exactly the position
`dropWhile` reaches. -/
theorem drop_takeWhile_eq_dropWhile (p : Char → Bool) (l : List Char) :
    l.drop (l.takeWhile p).length = l.dropWhile p := by
  induction l with
  | nil => rfl
  | cons a l ih =>
    by_cases h : p a
    · rw [List.takeWhile_cons, if_pos h, List.dropWhile_cons_of_pos h,
        List.length_cons, List.drop_succ_cons]
      exact ih
    · rw [List.takeWhile_cons, if_neg h, List.dropWhile_cons_of_neg h]
      rfl

/-- The head of what `dropWhile` leaves fails the predicate. -/
theorem head_dropWhile_false (p : Char → Bool) (l : List Char) {x : Char}
    (h : (l.dropWhile p).head? = some x) : p x = false := by
  have hx := List.head?_dropWhile_not p l
  rw [h] at hx
  simpa using hx

/-- The reduction scan never changes the first character. -/
theorem subAllF_reduce_head (fuel : Nat) (b : Bool) (l : List Char) :
    (subAllF reduceMatcher fuel b l).head? = l.head? := by
  cases fuel with
  | zero => rfl
  | succ fuel =>
    cases l with
    | nil => rfl
    | cons c rest =>
      show (match reduceMatcher b (c :: rest) with
        | some (n, repl) => repl ++ subAllF reduceMatcher fuel false (rest.drop n)
        | none => c :: subAllF reduceMatcher fuel false rest).head? = _
      unfold reduceMatcher
      by_cases hw : isWord c
      · by_cases hk : (rest.takeWhile (fun x => lowerCh x = lowerCh c)).length = 0
        · simp [hw, hk]
        · simp [hw, hk]
      · simp [hw]

/-- Unfolding equation for the scan driver at a cons cell. -/
theorem subAllF_cons (m : Matcher) (fuel : Nat) (b : Bool) (c : Char)
    (rest : List Char) :
    subAllF m (fuel + 1) b (c :: rest) =
      match m b (c :: rest) with
      | some (n, repl) => repl ++ subAllF m fuel false (rest.drop n)
      | none => c :: subAllF m fuel false rest :=
  rfl

/-- The reduce matcher declines on a non-word character. -/
theorem reduceMatcher_not_word {c : Char} (b : Bool) (rest : List Char)
    (hw : isWord c = false) : reduceMatcher b (c :: rest) = none := by
  unfold reduceMatcher
  simp [hw]

/-- The reduce matcher declines when the next character is not a
case-insensitive repetition. -/
theorem reduceMatcher_no_run {c : Char} (b : Bool) (rest : List Char)
    (hk : (rest.takeWhile (fun x => lowerCh x = lowerCh c)).length = 0) :
    reduceMatcher b (c :: rest) = none := by
  unfold reduceMatcher
  by_cases hw : isWord c <;> simp [hw, hk]

/-- The reduce matcher accepts a non-trivial case-insensitive run of a
word character, replacing it by its first character. -/
theorem reduceMatcher_run {c : Char} (b : Bool) (rest : List Char)
    (hw : isWord c = true)
    (hk : (rest.takeWhile (fun x => lowerCh x = lowerCh c)).length ≠ 0) :
    reduceMatcher b (c :: rest) =
      some ((rest.takeWhile (fun x => lowerCh x = lowerCh c)).length, [c]) := by
  unfold reduceMatcher
  simp [hw, hk]

/-- The no-adjacent-duplicates invariant established by the reducer: no
word character is immediately followed by a case-insensitively equal
character. -/
def RlowNe (a b : Char) : Prop := isWord a = true → lowerCh b ≠ lowerCh a

/-- The output of the reduction scan satisfies the invariant. -/
theorem subAllF_reduce_chain :
    ∀ (fuel : Nat) (b : Bool) (l : List Char), l.length ≤ fuel →
      List.Chain' RlowNe (subAllF reduceMatcher fuel b l) := by
  intro fuel
  induction fuel with
  | zero =>
    intro b l hl
    rw [List.length_eq_zero.mp (Nat.le_zero.mp hl)]
    exact List.chain'_nil
  | succ fuel ih =>
    intro b l hl
    cases l with
    | nil => exact List.chain'_nil
    | cons c rest =>
      have hrest : rest.length ≤ fuel := by
        rw [List.length_cons] at hl
        omega
      rw [subAllF_cons]
      by_cases hw : isWord c
      · by_cases hk : (rest.takeWhile (fun x => lowerCh x = lowerCh c)).length = 0
        · rw [reduceMatcher_no_run b rest hk]
          rw [List.chain'_cons']
          refine ⟨?_, ih false rest hrest⟩
          intro y hy
          rw [subAllF_reduce_head] at hy
          intro _
          cases rest with
          | nil => simp at hy
          | cons x rest' =>
            have hx : x = y := by simpa using hy
            subst hx
            rw [List.takeWhile_cons] at hk
            by_cases hpx : lowerCh x = lowerCh c
            · rw [if_pos (by simpa using hpx)] at hk
              simp at hk
            · exact hpx
        · rw [reduceMatcher_run b rest hw hk]
          show List.Chain' RlowNe (c :: subAllF reduceMatcher fuel false _)
          rw [List.chain'_cons']
          constructor
          · intro y hy
            rw [subAllF_reduce_head,
              drop_takeWhile_eq_dropWhile (fun x => lowerCh x = lowerCh c) rest] at hy
            intro _
            have := head_dropWhile_false (fun x => lowerCh x = lowerCh c) rest hy
            simpa using this
          · exact ih false _ (le_trans (List.drop_sublist _ _).length_le hrest)
      · rw [reduceMatcher_not_word b rest (by simpa using hw)]
        rw [List.chain'_cons']
        refine ⟨fun y _ hcw => absurd hcw hw, ih false rest hrest⟩

/-- A list already satisfying the invariant is a fixed point of the
reduction scan. -/
theorem subAllF_reduce_id :
    ∀ (fuel : Nat) (b : Bool) (l : List Char), List.Chain' RlowNe l →
      subAllF reduceMatcher fuel b l = l := by
  intro fuel
  induction fuel with
  | zero => intro b l _; rfl
  | succ fuel ih =>
    intro b l hch
    cases l with
    | nil => rfl
    | cons c rest =>
      rw [List.chain'_cons'] at hch
      have hnone : reduceMatcher b (c :: rest) = none := by
        by_cases hw : isWord c
        · refine reduceMatcher_no_run b rest ?_
          cases rest with
          | nil => rfl
          | cons x rest' =>
            have hx : lowerCh x ≠ lowerCh c := hch.1 x rfl hw
            rw [List.takeWhile_cons, if_neg (by simpa using hx)]
            rfl
        · exact reduceMatcher_not_word b rest (by simpa using hw)
      rw [subAllF_cons, hnone]
      rw [ih false rest hch.2]

/-- The invariant holds of every reduced sequence. -/
theorem reduceSeq_chain (s : List Char) : List.Chain' RlowNe (reduceSeq s) :=
  subAllF_reduce_chain s.length true s le_rfl

/-- `_reduce_seq` is idempotent. -/
theorem reduceSeq_idem (s : List Char) : reduceSeq (reduceSeq s) = reduceSeq s :=
  subAllF_reduce_id (reduceSeq s).length true (reduceSeq s) (reduceSeq_chain s)

/-- Claim C8, amended: the source's reducer is idempotent; it collapses
every maximal run of case-insensitively equal word characters to the
run's first character, and leaves non-word characters (where the claim's
"every maximal run of one identical symbol" description fails) alone. -/
theorem claimC8_amended (s : List Char) :
    reduceSeq (reduceSeq s) = reduceSeq s :=
  reduceSeq_idem s

/-- A matcher inserts only characters from `ins`: every character of a
replacement is either copied from the scanned list or drawn from `ins`. -/
def MatcherIns (m : Matcher) (ins : List Char) : Prop :=
  ∀ b l n r, m b l = some (n, r) → ∀ c ∈ r, c ∈ l ∨ c ∈ ins

/-- Weakening of the insertion set. -/
theorem MatcherIns.mono {m : Matcher} {ins ins' : List Char}
    (h : MatcherIns m ins) (hsub : ∀ c ∈ ins, c ∈ ins') : MatcherIns m ins' := by
  intro b l n r hm c hc
  rcases h b l n r hm c hc with hl | hi
  · exact Or.inl hl
  · exact Or.inr (hsub c hi)

/-- Characters of a scan's output are characters of the input or of the
matcher's insertion set. -/
theorem subAllF_mem {m : Matcher} {ins : List Char} (hm : MatcherIns m ins) :
    ∀ (fuel : Nat) (b : Bool) (l : List Char) (c : Char),
      c ∈ subAllF m fuel b l → c ∈ l ∨ c ∈ ins := by
  intro fuel
  induction fuel with
  | zero => exact fun b l c hc => Or.inl hc
  | succ fuel ih =>
    intro b l c hc
    cases l with
    | nil => exact absurd hc (by simp [subAllF])
    | cons a rest =>
      rw [subAllF_cons] at hc
      cases hma : m b (a :: rest) with
      | none =>
        rw [hma] at hc
        rcases List.mem_cons.mp hc with rfl | hc'
        · exact Or.inl (List.mem_cons_self _ _)
        · rcases ih false rest c hc' with hl | hi
          · exact Or.inl (List.mem_cons_of_mem a hl)
          · exact Or.inr hi
      | some p =>
        rw [hma] at hc
        rcases List.mem_append.mp hc with hr | hc'
        · exact hm b (a :: rest) p.1 p.2 (by rw [hma]) c hr
        · rcases ih false (rest.drop p.1) c hc' with hl | hi
          · exact Or.inl (List.mem_cons_of_mem a (List.mem_of_mem_drop hl))
          · exact Or.inr hi

/-- Matched characters come from the scanned list. -/
theorem matchPat_mem {ci : Bool} :
    ∀ {pat : List (List Char)} {l m rest : List Char},
      matchPat ci pat l = some (m, rest) → ∀ c ∈ m, c ∈ l := by
  intro pat
  induction pat with
  | nil =>
    intro l m rest h c hc
    cases h
    simp at hc
  | cons cls pats ih =>
    intro l m rest h c hc
    cases l with
    | nil => exact absurd h (by simp [matchPat])
    | cons a l' =>
      rw [matchPat] at h
      by_cases ht : charTest ci cls a
      · rw [if_pos ht] at h
        cases hmp : matchPat ci pats l' with
        | none => rw [hmp] at h; exact absurd h (by simp)
        | some q =>
          rw [hmp] at h
          cases h
          rcases List.mem_cons.mp hc with rfl | hc'
          · exact List.mem_cons_self _ _
          · exact List.mem_cons_of_mem a (ih hmp c hc')
      · rw [if_neg ht] at h
        exact absurd h (by simp)

/-- A successful pattern match binds as many characters as the pattern
has classes. -/
theorem matchPat_length {ci : Bool} :
    ∀ {pat : List (List Char)} {l m rest : List Char},
      matchPat ci pat l = some (m, rest) → m.length = pat.length := by
  intro pat
  induction pat with
  | nil =>
    intro l m rest h
    cases h
    rfl
  | cons cls pats ih =>
    intro l m rest h
    cases l with
    | nil => exact absurd h (by simp [matchPat])
    | cons a l' =>
      rw [matchPat] at h
      by_cases ht : charTest ci cls a
      · rw [if_pos ht] at h
        cases hmp : matchPat ci pats l' with
        | none => rw [hmp] at h; exact absurd h (by simp)
        | some q =>
          rw [hmp] at h
          cases h
          simpa using ih hmp
      · rw [if_neg ht] at h
        exact absurd h (by simp)

/-- An in-range `getD` is a member. -/
theorem getD_mem (l : List Char) (i : Nat) (d : Char) (h : i < l.length) :
    l.getD i d ∈ l := by
  induction l generalizing i with
  | nil => simp at h
  | cons a l ih =>
    cases i with
    | zero => simp
    | succ i =>
      refine List.mem_cons_of_mem a ?_
      simpa using ih i (by simpa using h)

/-- The literal characters a replacement template can insert. -/
def sumLits (repl : List (Sum Nat Char)) : List Char :=
  repl.filterMap (fun r => match r with | Sum.inl _ => none | Sum.inr c => some c)

/-- The group references a replacement template uses. -/
def replIdx (repl : List (Sum Nat Char)) : List Nat :=
  repl.filterMap (fun r => match r with | Sum.inl i => some i | Sum.inr _ => none)

/-- A class-pattern matcher inserts only its literal characters, provided
every group reference is in range. -/
theorem classMatcher_ins (ci : Bool) (pat : List (List Char)) (atEnd : Bool)
    (repl : List (Sum Nat Char))
    (hidx : ∀ i ∈ replIdx repl, i < pat.length) :
    MatcherIns (classMatcher ci pat atEnd repl) (sumLits repl) := by
  intro b l n r h c hc
  unfold classMatcher at h
  cases hmp : matchPat ci pat l with
  | none => rw [hmp] at h; exact absurd h (by simp)
  | some p =>
    obtain ⟨pm, prest⟩ := p
    rw [hmp] at h
    dsimp only at h
    by_cases hend : (atEnd && !prest.isEmpty) = true
    · rw [if_pos hend] at h
      exact absurd h (by simp)
    · rw [if_neg hend] at h
      cases h
      rcases List.mem_map.mp hc with ⟨x, hx, rfl⟩
      cases x with
      | inl i =>
        refine Or.inl (matchPat_mem hmp _ ?_)
        exact getD_mem pm i '?' (by
          rw [matchPat_length hmp]
          exact hidx i (List.mem_filterMap.mpr ⟨Sum.inl i, hx, rfl⟩))
      | inr c' =>
        refine Or.inr ?_
        unfold sumLits
        exact List.mem_filterMap.mpr ⟨Sum.inr c', hx, rfl⟩

/-- An iotation matcher inserts only its literal replacement. -/
theorem iotaMatcher_ins (t : Char) (lit : List Char) :
    MatcherIns (iotaMatcher t lit) lit := by
  intro b l n r h c hc
  unfold iotaMatcher at h
  cases l with
  | nil => exact absurd h (by simp)
  | cons a rest =>
    dsimp only at h
    by_cases h1 : (b && decide (lowerCh a = t)) = true
    · rw [if_pos h1] at h
      cases h
      exact Or.inr hc
    · rw [if_neg h1] at h
      cases rest with
      | nil => exact absurd h (by simp)
      | cons x rest' =>
        dsimp only at h
        by_cases h2 : (ctxChars.contains (lowerCh a) && decide (lowerCh x = t)) = true
        · rw [if_pos h2] at h
          cases h
          exact Or.inr hc
        · rw [if_neg h2] at h
          exact absurd h (by simp)

/-- The reduce matcher inserts nothing. -/
theorem reduceMatcher_ins : MatcherIns reduceMatcher [] := by
  intro b l n r h c hc
  cases l with
  | nil => exact absurd h (by simp [reduceMatcher])
  | cons a rest =>
    by_cases hw : isWord a
    · by_cases hk : (rest.takeWhile (fun x => lowerCh x = lowerCh a)).length = 0
      · rw [reduceMatcher_no_run b rest hk] at h
        exact absurd h (by simp)
      · rw [reduceMatcher_run b rest hw hk] at h
        cases h
        have : c = a := by simpa using hc
        exact Or.inl (this ▸ List.mem_cons_self _ _)
    · rw [reduceMatcher_not_word b rest (by simpa using hw)] at h
      exact absurd h (by simp)

/-- The zero-stripping matcher inserts nothing. -/
theorem zerosMatcher_ins : MatcherIns zerosMatcher [] := by
  intro b l n r h c hc
  unfold zerosMatcher at h
  cases l with
  | nil => exact absurd h (by simp)
  | cons a rest =>
    dsimp only at h
    by_cases ha : a = '0'
    · rw [if_pos ha] at h
      cases h
      simp at hc
    · rw [if_neg ha] at h
      exact absurd h (by simp)

/-- The lowercase Russian alphabet (а..я plus ё). -/
def ruLow : List Char :=
  ((List.range 32).map (fun i => Char.ofNat (0x430 + i))) ++ ['ё']

/-- The full Russian alphabet, both cases. -/
def ruAll : List Char :=
  ruLow ++ ((List.range 32).map (fun i => Char.ofNat (0x410 + i))) ++ ['Ё']

/-- Characters the replacement-map rules can insert. -/
def rulesIns : List Char := ['j', 'а', 'у', 'э', 'о', 'ц']

/-- Every rule of the replacement map inserts only `rulesIns`
characters. -/
theorem replacementMap_ins : ∀ m ∈ replacementMap, MatcherIns m rulesIns := by
  intro m hm
  simp only [replacementMap, List.mem_cons, List.not_mem_nil, or_false] at hm
  rcases hm with rfl | rfl | rfl | rfl | rfl | rfl | rfl | rfl | rfl | rfl | rfl |
    rfl | rfl | rfl | rfl
  · exact (iotaMatcher_ins _ _).mono (by decide)
  · exact (iotaMatcher_ins _ _).mono (by decide)
  · exact (iotaMatcher_ins _ _).mono (by decide)
  · exact (iotaMatcher_ins _ _).mono (by decide)
  · exact (classMatcher_ins _ _ _ _ (by decide)).mono (by decide)
  · exact (classMatcher_ins _ _ _ _ (by decide)).mono (by decide)
  · exact (classMatcher_ins _ _ _ _ (by decide)).mono (by decide)
  · exact (classMatcher_ins _ _ _ _ (by decide)).mono (by decide)
  · exact (classMatcher_ins _ _ _ _ (by decide)).mono (by decide)
  · exact (classMatcher_ins _ _ _ _ (by decide)).mono (by decide)
  · exact (classMatcher_ins _ _ _ _ (by decide)).mono (by decide)
  · exact (classMatcher_ins _ _ _ _ (by decide)).mono (by decide)
  · exact (classMatcher_ins _ _ _ _ (by decide)).mono (by decide)
  · exact (classMatcher_ins _ _ _ _ (by decide)).mono (by decide)
  · exact (classMatcher_ins _ _ _ _ (by decide)).mono (by decide)

/-- Folding scans over a rule list only adds `ins` characters. -/
theorem foldl_reSubAll_mem (ms : List Matcher) (ins : List Char)
    (hms : ∀ m ∈ ms, MatcherIns m ins) :
    ∀ (w : List Char) (c : Char),
      c ∈ ms.foldl (fun acc m => reSubAll m acc) w → c ∈ w ∨ c ∈ ins := by
  induction ms with
  | nil => exact fun w c hc => Or.inl hc
  | cons m ms ih =>
    intro w c hc
    rw [List.foldl_cons] at hc
    rcases ih (fun m' hm' => hms m' (List.mem_cons_of_mem m hm')) _ c hc with h1 | h2
    · exact subAllF_mem (hms m (List.mem_cons_self _ _)) _ _ _ _ h1
    · exact Or.inr h2

/-- Characters of the fully normalized word: everything is a Russian
letter or the inserted 'j' when the input is made of Russian letters. -/
theorem normalizeWord_mem (cfg : Config) (oracle : Oracle) (w n : List Char)
    (h : normalizeWord cfg oracle w = .ok n) (hw : ∀ c ∈ w, c ∈ ruAll) :
    ∀ c ∈ n, c ∈ 'j' :: ruAll := by
  have hsub : ∀ v : List Char, (∀ c ∈ v, c ∈ 'j' :: ruAll) →
      ∀ c ∈ applyReplacementMap v, c ∈ 'j' :: ruAll := by
    intro v hv c hc
    rcases foldl_reSubAll_mem replacementMap rulesIns replacementMap_ins v c hc with h1 | h2
    · exact hv c h1
    · exact (by decide : ∀ x ∈ rulesIns, x ∈ 'j' :: ruAll) c h2
  have hmorph : ∀ w1, (if cfg.use_morph_analysis then
      useMorphForPhonemeReplace oracle w else .ok w) = .ok w1 →
      ∀ c ∈ w1, c ∈ 'j' :: ruAll := by
    intro w1 hw1 c hc
    by_cases hum : cfg.use_morph_analysis
    · rw [if_pos hum] at hw1
      unfold useMorphForPhonemeReplace at hw1
      cases ho : oracle w with
      | error e => rw [ho] at hw1; exact absurd hw1 (by simp)
      | ok parses =>
        rw [ho] at hw1
        cases hw1
        cases parses with
        | nil => exact List.mem_cons_of_mem _ (hw c hc)
        | cons p ps =>
          dsimp only at hc
          by_cases hp : hasTargetTag p
          · rw [if_pos hp] at hc
            unfold replaceEgoOgoEndings at hc
            rcases subAllF_mem (((classMatcher_ins _ _ _ _ (by decide)).mono
              (by decide)) : MatcherIns ruleEgoOgo ['в']) _ _ _ _ hc with h1 | h2
            · exact List.mem_cons_of_mem _ (hw c h1)
            · have : c = 'в' := by simpa using h2
              subst this
              decide
          · rw [if_neg hp] at hc
            exact List.mem_cons_of_mem _ (hw c hc)
    · rw [if_neg hum] at hw1
      cases hw1
      exact List.mem_cons_of_mem _ (hw c hc)
  unfold normalizeWord at h
  cases hm : (if cfg.use_morph_analysis then
      useMorphForPhonemeReplace oracle w else .ok w) with
  | error e => rw [hm] at h; exact absurd h (by simp)
  | ok w1 =>
    rw [hm] at h
    dsimp only at h
    have h1 := hsub w1 (hmorph w1 hm)
    have hn := Except.ok.inj h
    clear h
    subst hn
    intro c hc
    by_cases hcv : cfg.code_vowels
    · rw [if_pos hcv] at hc
      rcases subAllF_mem (((classMatcher_ins _ _ _ _ (by decide)).mono
        (by decide)) : MatcherIns cleanupEa ['я']) _ _ _ _ hc with hA | hB
      · rcases subAllF_mem (((classMatcher_ins _ _ _ _ (by decide)).mono
          (by decide)) : MatcherIns cleanupIe ['и']) _ _ _ _ hA with hC | hD
        · exact h1 c hC
        · have : c = 'и' := by simpa using hD
          subst this
          decide
      · have : c = 'я' := by simpa using hB
        subst this
        decide
    · rw [if_neg hcv] at hc
      exact h1 c hc

/-- The zero-stripping scan is the identity on zero-free sequences. -/
theorem subAllF_zeros_id :
    ∀ (fuel : Nat) (b : Bool) (l : List Char),
      (∀ c ∈ l, c ≠ '0') → subAllF zerosMatcher fuel b l = l := by
  intro fuel
  induction fuel with
  | zero => intro b l _; rfl
  | succ fuel ih =>
    intro b l h
    cases l with
    | nil => rfl
    | cons a rest =>
      rw [subAllF_cons]
      have hz : zerosMatcher b (a :: rest) = none := by
        unfold zerosMatcher
        dsimp only
        rw [if_neg (h a (List.mem_cons_self _ _))]
      rw [hz, ih false rest (fun c hc => h c (List.mem_cons_of_mem a hc))]

/-- `_remove_vowels_and_paired_sounds` is the identity on an
already-reduced zero-free sequence. -/
theorem removeVowels_reduced (s : List Char)
    (h : ∀ c ∈ reduceSeq s, c ≠ '0') :
    removeVowelsAndPairedSounds (reduceSeq s) = reduceSeq s := by
  unfold removeVowelsAndPairedSounds reSubAll
  rw [subAllF_zeros_id _ _ _ h]
  exact reduceSeq_idem s

/-- With `code_vowels` the classification of a lowercase Russian word
never produces the placeholder '0', so the `delete_zeros` stage of
`codeLast` does nothing. -/
theorem codeLast_dz_eq (f1 f2 f4 f7 : Bool) (n5 : Int) (lw : List Char)
    (hlw : ∀ c ∈ lw, c ∈ 'j' :: ruLow) :
    codeLast ⟨f1, f2, true, f4, n5, true, f7⟩ lw =
      codeLast ⟨f1, f2, false, f4, n5, true, f7⟩ lw := by
  unfold codeLast
  dsimp only
  have htvA : translateVowels ⟨f1, f2, true, f4, n5, true, f7⟩
      (lw.map (tblGet consPairs)) =
      (lw.map (tblGet consPairs)).map (tblGet vowelPairs) := rfl
  have htvB : translateVowels ⟨f1, f2, false, f4, n5, true, f7⟩
      (lw.map (tblGet consPairs)) =
      (lw.map (tblGet consPairs)).map (tblGet vowelPairs) := rfl
  rw [htvA, htvB]
  have h0 : ∀ c ∈ reduceSeq ((lw.map (tblGet consPairs)).map (tblGet vowelPairs)),
      c ≠ '0' := by
    intro c hc
    rcases subAllF_mem reduceMatcher_ins _ _ _ _ hc with h1 | h2
    · rcases List.mem_map.mp h1 with ⟨x, hx, rfl⟩
      rcases List.mem_map.mp hx with ⟨y, hy, rfl⟩
      exact (by decide :
        ∀ y ∈ 'j' :: ruLow, tblGet vowelPairs (tblGet consPairs y) ≠ '0') y (hlw y hy)
    · simp at h2
  have hz : zerosStep true
        (reduceSeq ((lw.map (tblGet consPairs)).map (tblGet vowelPairs))) =
      zerosStep false
        (reduceSeq ((lw.map (tblGet consPairs)).map (tblGet vowelPairs))) := by
    unfold zerosStep
    rw [if_pos rfl, if_neg (by decide : ¬ false = true)]
    exact removeVowels_reduced _ h0
  rw [hz]

/-- Claim C9: with `code_vowels`, vowels are encoded as the class
letters A/B/C rather than '0', and `delete_zeros` strips only literal
'0' runs; for a word over the Russian alphabet the option therefore
removes nothing — `transform` gives the same code with and without it. -/
theorem claimC9 (cfg : Config) (oracle : Oracle) (w : List Char)
    (hcv : cfg.code_vowels = true) (hdz : cfg.delete_zeros = true)
    (hw : ∀ c ∈ w, c ∈ ruAll) :
    transform cfg oracle w = transform { cfg with delete_zeros := false } oracle w := by
  obtain ⟨f1, f2, f3, f4, n5, f6, f7⟩ := cfg
  replace hcv : f6 = true := hcv
  replace hdz : f3 = true := hdz
  subst hcv
  subst hdz
  show transform ⟨f1, f2, true, f4, n5, true, f7⟩ oracle w =
    transform ⟨f1, f2, false, f4, n5, true, f7⟩ oracle w
  have hnorm : normalizeWord ⟨f1, f2, true, f4, n5, true, f7⟩ oracle w =
      normalizeWord ⟨f1, f2, false, f4, n5, true, f7⟩ oracle w := rfl
  cases hn : normalizeWord ⟨f1, f2, false, f4, n5, true, f7⟩ oracle w with
  | error e => rw [transform_eq_err (hnorm.trans hn), transform_eq_err hn]
  | ok n =>
    rw [transform_eq_ok (hnorm.trans hn), transform_eq_ok hn]
    have hmem := normalizeWord_mem _ oracle w n hn hw
    cases hml : n.map lowerCh with
    | nil => rw [applySoundex_nil hml, applySoundex_nil hml]
    | cons f rest =>
      rw [applySoundex_cons hml, applySoundex_cons hml]
      have hlw : ∀ c ∈ f :: rest, c ∈ 'j' :: ruLow := by
        rw [← hml]
        intro c hc
        rcases List.mem_map.mp hc with ⟨x, hx, rfl⟩
        exact (by decide : ∀ x ∈ 'j' :: ruAll, lowerCh x ∈ 'j' :: ruLow) x (hmem x hx)
      rw [codeLast_dz_eq f1 f2 f4 f7 n5 (f :: rest) hlw]

/-- Claim C9, witness at a concrete input. -/
theorem claimC9_witness :
    (∀ c ∈ ['д', 'о', 'м'], c ∈ ruAll) ∧
    transform { code_vowels := true, delete_zeros := true } emptyOracle
        ['д', 'о', 'м'] =
      transform { ({ code_vowels := true, delete_zeros := true } : Config) with
        delete_zeros := false } emptyOracle ['д', 'о', 'м'] :=
  ⟨by decide, claimC9 _ emptyOracle _ rfl rfl (by decide)⟩

/-- The characters that can appear in a coded tail built from a
lowercase Russian word: the placeholder and class digits, the vowel
class letters, 'j', and the untranslated й/ъ/ь. -/
def dTail : List Char :=
  ['0', '1', '2', '3', '4', '5', '6', '7', '8', '9', 'j', 'A', 'B', 'C',
   'й', 'ъ', 'ь']

/-- Transfer a chain along an implication that holds on the list's
members. -/
theorem chain'_mono_mem {R S : Char → Char → Prop} {P : Char → Prop} :
    ∀ l : List Char, (∀ c ∈ l, P c) → (∀ a b, P a → P b → R a b → S a b) →
      List.Chain' R l → List.Chain' S l := by
  intro l
  induction l with
  | nil => intro _ _ _; exact List.chain'_nil
  | cons a t ih =>
    intro hP himp hch
    cases t with
    | nil => exact List.chain'_singleton a
    | cons b t' =>
      rw [List.chain'_cons] at hch ⊢
      exact ⟨himp a b (hP a (by simp)) (hP b (by simp)) hch.1,
        ih (fun c hc => hP c (List.mem_cons_of_mem a hc)) himp hch.2⟩

/-- The `delete_zeros` stage of a reduced sequence is itself a reduced
sequence, so it satisfies the no-adjacent-duplicates invariant. -/
theorem zerosStep_chain (dz : Bool) (s : List Char) :
    List.Chain' RlowNe (zerosStep dz (reduceSeq s)) := by
  unfold zerosStep
  by_cases h : dz = true
  · rw [if_pos h]
    unfold removeVowelsAndPairedSounds
    exact reduceSeq_chain _
  · rw [if_neg h]
    exact reduceSeq_chain s

/-- Characters surviving the `delete_zeros` stage come from the
original sequence. -/
theorem zerosStep_mem (dz : Bool) (s : List Char) (c : Char)
    (hc : c ∈ zerosStep dz (reduceSeq s)) : c ∈ s := by
  unfold zerosStep at hc
  by_cases h : dz = true
  · rw [if_pos h] at hc
    unfold removeVowelsAndPairedSounds at hc
    rcases subAllF_mem reduceMatcher_ins _ _ _ _ hc with h1 | h2
    · rcases subAllF_mem zerosMatcher_ins _ _ _ _ h1 with h3 | h4
      · rcases subAllF_mem reduceMatcher_ins _ _ _ _ h3 with h5 | h6
        · exact h5
        · simp at h6
      · simp at h4
    · simp at h2
  · rw [if_neg h] at hc
    rcases subAllF_mem reduceMatcher_ins _ _ _ _ hc with h1 | h2
    · exact h1
    · simp at h2

/-- Dropping the first coded letter preserves a chain invariant. -/
theorem dfclStep_chain {R : Char → Char → Prop} (d : Bool) (l : List Char)
    (h : List.Chain' R l) : List.Chain' R (dfclStep d l) := by
  unfold dfclStep
  by_cases hd : d = true
  · rw [if_pos hd, List.drop_one]
    exact h.tail
  · rw [if_neg hd]
    exact h

/-- Dropping the first coded letter keeps only original characters. -/
theorem dfclStep_mem (d : Bool) (l : List Char) (c : Char)
    (hc : c ∈ dfclStep d l) : c ∈ l := by
  unfold dfclStep at hc
  by_cases hd : d = true
  · rw [if_pos hd] at hc
    exact List.mem_of_mem_drop hc
  · rw [if_neg hd] at hc
    exact hc

/-- Classification of a lowercase Russian word yields `dTail`
characters only, under either vowel-translation mode. -/
theorem translateVowels_mem (cfg : Config) (lw : List Char)
    (hlw : ∀ c ∈ lw, c ∈ 'j' :: ruLow) :
    ∀ c ∈ translateVowels cfg (lw.map (tblGet consPairs)), c ∈ dTail := by
  intro c hc
  unfold translateVowels at hc
  by_cases hcv : cfg.code_vowels = true
  · rw [if_pos hcv] at hc
    rcases List.mem_map.mp hc with ⟨x, hx, rfl⟩
    rcases List.mem_map.mp hx with ⟨y, hy, rfl⟩
    exact (by decide :
      ∀ y ∈ 'j' :: ruLow, tblGet vowelPairs (tblGet consPairs y) ∈ dTail) y (hlw y hy)
  · rw [if_neg hcv] at hc
    rcases List.mem_map.mp hc with ⟨x, hx, rfl⟩
    rcases List.mem_map.mp hx with ⟨y, hy, rfl⟩
    exact (by decide : ∀ y ∈ 'j' :: ruLow,
      (if isVowelRu (tblGet consPairs y) = true then '0'
       else tblGet consPairs y) ∈ dTail) y (hlw y hy)

/-- Without `cut_result`, the coded tail of a lowercase Russian word
satisfies the invariant and stays within `dTail`. -/
theorem codeLast_chain_mem (cfg : Config) (lw : List Char)
    (hcut : cfg.cut_result = false) (hlw : ∀ c ∈ lw, c ∈ 'j' :: ruLow) :
    List.Chain' RlowNe (codeLast cfg lw) ∧ ∀ c ∈ codeLast cfg lw, c ∈ dTail := by
  unfold codeLast
  rw [hcut]
  have hcf : cutStep false cfg.seq_cutted_len
      (zerosStep cfg.delete_zeros
        (reduceSeq (translateVowels cfg (lw.map (tblGet consPairs))))) =
      zerosStep cfg.delete_zeros
        (reduceSeq (translateVowels cfg (lw.map (tblGet consPairs)))) := by
    unfold cutStep
    rw [if_neg (by decide : ¬ false = true)]
  rw [hcf]
  constructor
  · exact dfclStep_chain _ _ (zerosStep_chain _ _)
  · intro c hc
    exact translateVowels_mem cfg lw hlw c
      (zerosStep_mem _ _ c (dfclStep_mem _ _ c hc))

/-- Claim C6, amended: when `cut_result` is unset (padding is the only
source of repeats) and the word is over the Russian alphabet, the coded
tail of the code returned by `transform` never contains two adjacent
identical symbols. -/
theorem claimC6_amended (cfg : Config) (oracle : Oracle) (w code : List Char)
    (hcut : cfg.cut_result = false) (hw : ∀ c ∈ w, c ∈ ruAll)
    (h : transform cfg oracle w = .ok code) :
    List.Chain' (· ≠ ·) (code.drop (if cfg.delete_first_letter then 0 else 1)) := by
  rcases hn : normalizeWord cfg oracle w with e | n
  · rw [transform_eq_err hn] at h
    exact absurd h (by simp)
  · rw [transform_eq_ok hn] at h
    rcases hml : n.map lowerCh with _ | ⟨f, rest⟩
    · rw [applySoundex_nil hml] at h
      exact absurd h (by simp)
    · rw [applySoundex_cons hml] at h
      have hcode := Except.ok.inj h
      clear h
      subst hcode
      have hmem := normalizeWord_mem cfg oracle w n hn hw
      have hlw : ∀ c ∈ f :: rest, c ∈ 'j' :: ruLow := by
        rw [← hml]
        intro c hc
        rcases List.mem_map.mp hc with ⟨x, hx, rfl⟩
        exact (by decide : ∀ x ∈ 'j' :: ruAll, lowerCh x ∈ 'j' :: ruLow) x (hmem x hx)
      have hdrop : ((if cfg.delete_first_letter then [] else [upperCh f]) ++
          (codeLast cfg (f :: rest)).map upperCh).drop
            (if cfg.delete_first_letter then 0 else 1) =
          (codeLast cfg (f :: rest)).map upperCh := by
        cases hfl : cfg.delete_first_letter <;> simp [hfl]
      rw [hdrop]
      obtain ⟨hch, hdm⟩ := codeLast_chain_mem cfg (f :: rest) hcut hlw
      refine (List.chain'_map upperCh).mpr ?_
      refine chain'_mono_mem (P := fun c => c ∈ dTail) _ hdm ?_ hch
      intro a b ha hb hr
      exact (by decide : ∀ a ∈ dTail, ∀ b ∈ dTail,
        (isWord a = true → ¬ lowerCh b = lowerCh a) → ¬ upperCh a = upperCh b)
        a ha b hb hr

/-- Claim C6, witness for the amended theorem at a concrete input. -/
theorem claimC6_witness :
    (∀ c ∈ ['а', 'б'], c ∈ ruAll) ∧
    transform {} emptyOracle ['а', 'б'] = .ok ['А', '0', '1'] ∧
    List.Chain' (· ≠ ·) ((['А', '0', '1'] : List Char).drop
      (if ({} : Config).delete_first_letter then 0 else 1)) :=
  ⟨by decide, rfl, claimC6_amended {} emptyOracle ['а', 'б'] ['А', '0', '1']
    rfl (by decide) rfl⟩

/-- A table lookup either misses (returning the key) or hits a pair of
the table. -/
theorem tblGet_mem : ∀ (tbl : List (Char × Char)) (c : Char),
    tblGet tbl c = c ∨ (c, tblGet tbl c) ∈ tbl := by
  intro tbl
  induction tbl with
  | nil => intro c; exact Or.inl rfl
  | cons p rest ih =>
    intro c
    obtain ⟨k, v⟩ := p
    unfold tblGet
    by_cases hk : c = k
    · rw [if_pos hk]
      subst hk
      exact Or.inr (List.mem_cons_self _ _)
    · rw [if_neg hk]
      rcases ih c with h | h
      · exact Or.inl h
      · exact Or.inr (List.mem_cons_of_mem _ h)

/-- Lowercasing is idempotent. -/
theorem lowerCh_idem (c : Char) : lowerCh (lowerCh c) = lowerCh c := by
  rcases tblGet_mem lowPairs c with h | h
  · unfold lowerCh
    rw [h]
    exact h
  · exact (by decide : ∀ p ∈ lowPairs, lowerCh p.2 = p.2) _ h

/-- Lowercasing after uppercasing is just lowercasing. -/
theorem lowerCh_upperCh (c : Char) : lowerCh (upperCh c) = lowerCh c := by
  rcases tblGet_mem upPairs c with h | h
  · unfold upperCh
    rw [h]
  · exact (by decide : ∀ p ∈ upPairs, lowerCh p.2 = lowerCh p.1) _ h

/-- `getD` on a mapped list. -/
theorem getD_map (f : Char → Char) :
    ∀ (l : List Char) (i : Nat) (d : Char),
      (l.map f).getD i (f d) = f (l.getD i d) := by
  intro l
  induction l with
  | nil => intro i d; rfl
  | cons a t ih =>
    intro i d
    cases i with
    | zero => rfl
    | succ i => exact ih i d

/-- A matcher is case-oblivious: on the lowercased word it matches the
same spans and produces the lowercased replacements. -/
def MatcherLow (m : Matcher) : Prop :=
  ∀ b l, m b (l.map lowerCh) = (m b l).map (fun p => (p.1, p.2.map lowerCh))

/-- A scan with a case-oblivious matcher commutes with lowercasing. -/
theorem subAllF_low {m : Matcher} (hm : MatcherLow m) :
    ∀ (fuel : Nat) (b : Bool) (l : List Char),
      subAllF m fuel b (l.map lowerCh) = (subAllF m fuel b l).map lowerCh := by
  intro fuel
  induction fuel with
  | zero => intro b l; rfl
  | succ fuel ih =>
    intro b l
    cases l with
    | nil => rfl
    | cons c rest =>
      have hm' := hm b (c :: rest)
      rw [List.map_cons] at hm' ⊢
      rw [subAllF_cons, subAllF_cons]
      cases hmb : m b (c :: rest) with
      | none =>
        rw [hmb] at hm'
        rw [Option.map_none'] at hm'
        rw [hm']
        rw [List.map_cons, ih false rest]
      | some p =>
        obtain ⟨n, repl⟩ := p
        rw [hmb] at hm'
        rw [Option.map_some'] at hm'
        rw [hm']
        dsimp only
        rw [← List.map_drop, ih false (rest.drop n), List.map_append]

/-- Case-insensitive pattern matching commutes with lowercasing. -/
theorem matchPat_low :
    ∀ (pat : List (List Char)) (l : List Char),
      matchPat true pat (l.map lowerCh) =
        (matchPat true pat l).map (fun p => (p.1.map lowerCh, p.2.map lowerCh)) := by
  intro pat
  induction pat with
  | nil => intro l; rfl
  | cons cls pats ih =>
    intro l
    cases l with
    | nil => rfl
    | cons c t =>
      rw [List.map_cons]
      have hct : charTest true cls (lowerCh c) = charTest true cls c := by
        unfold charTest
        rw [if_pos rfl, if_pos rfl, lowerCh_idem]
      by_cases ht : charTest true cls c = true
      · rw [matchPat, matchPat, hct, if_pos ht, if_pos ht]
        rw [ih t]
        cases matchPat true pats t <;> rfl
      · rw [matchPat, matchPat, hct, if_neg ht, if_neg ht]
        rfl

/-- A case-insensitive class matcher whose literal insertions are
lowercase-fixed is case-oblivious. -/
theorem classMatcher_low (pat : List (List Char)) (atEnd : Bool)
    (repl : List (Sum Nat Char)) (hlits : ∀ c ∈ sumLits repl, lowerCh c = c) :
    MatcherLow (classMatcher true pat atEnd repl) := by
  intro b l
  unfold classMatcher
  rw [matchPat_low pat l]
  cases hmp : matchPat true pat l with
  | none => rfl
  | some p =>
    obtain ⟨pm, prest⟩ := p
    dsimp only [Option.map_some']
    have hie : (prest.map lowerCh).isEmpty = prest.isEmpty := by
      cases prest <;> rfl
    rw [hie]
    by_cases hend : (atEnd && !prest.isEmpty) = true
    · rw [if_pos hend, if_pos hend]
      rfl
    · rw [if_neg hend, if_neg hend]
      rw [Option.map_some']
      have hrepl : (repl.map (fun r => match r with
          | Sum.inl i => (pm.map lowerCh).getD i '?'
          | Sum.inr c => c)) =
          (repl.map (fun r => match r with
          | Sum.inl i => pm.getD i '?'
          | Sum.inr c => c)).map lowerCh := by
        rw [List.map_map]
        refine List.map_congr_left ?_
        intro x hx
        cases x with
        | inl i =>
          show (pm.map lowerCh).getD i '?' = lowerCh (pm.getD i '?')
          exact getD_map lowerCh pm i '?'
        | inr c =>
          show c = lowerCh c
          exact (hlits c (List.mem_filterMap.mpr ⟨Sum.inr c, hx, rfl⟩)).symm
      rw [hrepl]

/-- An iotation matcher with a lowercase-fixed literal is
case-oblivious. -/
theorem iotaMatcher_low (t : Char) (lit : List Char)
    (hlit : lit.map lowerCh = lit) : MatcherLow (iotaMatcher t lit) := by
  intro b l
  unfold iotaMatcher
  cases l with
  | nil => rfl
  | cons a rest =>
    rw [List.map_cons]
    dsimp only
    rw [lowerCh_idem a]
    by_cases h1 : (b && decide (lowerCh a = t)) = true
    · rw [if_pos h1, if_pos h1]
      rw [Option.map_some']
      rw [hlit]
    · rw [if_neg h1, if_neg h1]
      cases rest with
      | nil => rfl
      | cons x rest' =>
        rw [List.map_cons]
        dsimp only
        rw [lowerCh_idem x]
        by_cases h2 : (ctxChars.contains (lowerCh a) && decide (lowerCh x = t)) = true
        · rw [if_pos h2]
          rw [Option.map_some']
          rw [hlit]
        · rw [if_neg h2]
          rfl

/-- Every rule of the replacement map is case-oblivious (all fifteen
patterns carry `re.IGNORECASE` and all literal insertions are
lowercase). -/
theorem replacementMap_low : ∀ m ∈ replacementMap, MatcherLow m := by
  intro m hm
  simp only [replacementMap, List.mem_cons, List.not_mem_nil, or_false] at hm
  rcases hm with rfl | rfl | rfl | rfl | rfl | rfl | rfl | rfl | rfl | rfl | rfl |
    rfl | rfl | rfl | rfl
  · exact iotaMatcher_low _ _ (by decide)
  · exact iotaMatcher_low _ _ (by decide)
  · exact iotaMatcher_low _ _ (by decide)
  · exact iotaMatcher_low _ _ (by decide)
  · exact classMatcher_low _ _ _ (by decide)
  · exact classMatcher_low _ _ _ (by decide)
  · exact classMatcher_low _ _ _ (by decide)
  · exact classMatcher_low _ _ _ (by decide)
  · exact classMatcher_low _ _ _ (by decide)
  · exact classMatcher_low _ _ _ (by decide)
  · exact classMatcher_low _ _ _ (by decide)
  · exact classMatcher_low _ _ _ (by decide)
  · exact classMatcher_low _ _ _ (by decide)
  · exact classMatcher_low _ _ _ (by decide)
  · exact classMatcher_low _ _ _ (by decide)

/-- The whole replacement map commutes with lowercasing. -/
theorem applyReplacementMap_low (w : List Char) :
    applyReplacementMap (w.map lowerCh) = (applyReplacementMap w).map lowerCh := by
  have key : ∀ (ms : List Matcher), (∀ m ∈ ms, MatcherLow m) → ∀ v : List Char,
      ms.foldl (fun acc m => reSubAll m acc) (v.map lowerCh) =
        (ms.foldl (fun acc m => reSubAll m acc) v).map lowerCh := by
    intro ms
    induction ms with
    | nil => intro _ v; rfl
    | cons m ms ih =>
      intro hms v
      rw [List.foldl_cons, List.foldl_cons]
      have h1 : reSubAll m (v.map lowerCh) = (reSubAll m v).map lowerCh := by
        unfold reSubAll
        rw [List.length_map]
        exact subAllF_low (hms m (List.mem_cons_self _ _)) _ _ _
      rw [h1]
      exact ih (fun m' hm' => hms m' (List.mem_cons_of_mem m hm')) (reSubAll m v)
  exact key replacementMap replacementMap_low w

/-- Claim C7, amended: for a configuration with `code_vowels` and
`use_morph_analysis` disabled, `transform` is case-invariant:
`transform(w) = transform(w.upper())` for every word.  (With
`code_vowels` the two cleanup rewrites are case-sensitive and break the
equality, as the counterexample shows; with morph analysis the result
additionally depends on the external oracle's case behaviour.) -/
theorem claimC7_amended (cfg : Config) (oracle : Oracle) (w : List Char)
    (hcv : cfg.code_vowels = false) (hum : cfg.use_morph_analysis = false) :
    transform cfg oracle w = transform cfg oracle (w.map upperCh) := by
  obtain ⟨f1, f2, f3, f4, n5, f6, f7⟩ := cfg
  replace hcv : f6 = false := hcv
  replace hum : f7 = false := hum
  subst hcv
  subst hum
  have hn1 : normalizeWord ⟨f1, f2, f3, f4, n5, false, false⟩ oracle w =
      .ok (applyReplacementMap w) := rfl
  have hn2 : normalizeWord ⟨f1, f2, f3, f4, n5, false, false⟩ oracle
      (w.map upperCh) = .ok (applyReplacementMap (w.map upperCh)) := rfl
  rw [transform_eq_ok hn1, transform_eq_ok hn2]
  have hkey : (applyReplacementMap (w.map upperCh)).map lowerCh =
      (applyReplacementMap w).map lowerCh := by
    rw [← applyReplacementMap_low, ← applyReplacementMap_low]
    congr 1
    rw [List.map_map]
    exact List.map_congr_left (fun c _ => lowerCh_upperCh c)
  unfold applySoundexAlgorithm
  rw [hkey]

/-- Claim C7, witness for the amended theorem at a concrete input. -/
theorem claimC7_witness :
    transform {} emptyOracle ['д', 'о', 'м'] =
      transform {} emptyOracle (['д', 'о', 'м'].map upperCh) ∧
    transform {} emptyOracle (['д', 'о', 'м'].map upperCh) =
      .ok ['Д', '4', '0', '8'] :=
  ⟨claimC7_amended {} emptyOracle ['д', 'о', 'м'] rfl rfl, rfl⟩
